import Mathlib

/-!
Verification of the SAP HANA dialect adapter (sqlalchemy_hana/dialect.py).

Identifiers are modelled as lists of characters; Python's `str.upper()` and
`str.lower()` are modelled character-wise by `Char.toUpper` / `Char.toLower`
(the ASCII case mapping).  The host framework's `_requires_quotes` predicate
is an external input of the dialect, so it is abstracted as a boolean
predicate `rq` on identifiers.  Catalog queries return row lists; the
introspection methods are modelled as pure functions from those row lists to
the reflected records they build.
-/

namespace SqlalchemyHana

/-- Python str.upper(), character-wise (ASCII case mapping). -/
def upperN (n : List Char) : List Char := n.map Char.toUpper

/-- Python str.lower(), character-wise (ASCII case mapping). -/
def lowerN (n : List Char) : List Char := n.map Char.toLower

theorem char_toNat_ofNat {n : Nat} (h : n < 0xd800) : (Char.ofNat n).toNat = n := by
  have hv : n.isValidChar := Or.inl h
  simp [Char.ofNat, hv, Char.ofNatAux, Char.toNat, UInt32.toNat]

theorem toLower_toLower (c : Char) : c.toLower.toLower = c.toLower := by
  by_cases h : 65 ≤ c.toNat ∧ c.toNat ≤ 90
  · have h1 : c.toLower = Char.ofNat (c.toNat + 32) := by
      simp [Char.toLower, h.1, h.2]
    have h2 : (Char.ofNat (c.toNat + 32)).toNat = c.toNat + 32 :=
      char_toNat_ofNat (by omega)
    rw [h1]
    simp [Char.toLower, h2]
    omega
  · have h1 : c.toLower = c := by
      simp [Char.toLower]
      omega
    rw [h1, h1]

theorem toUpper_toUpper (c : Char) : c.toUpper.toUpper = c.toUpper := by
  by_cases h : 97 ≤ c.toNat ∧ c.toNat ≤ 122
  · have h1 : c.toUpper = Char.ofNat (c.toNat - 32) := by
      simp [Char.toUpper, h.1, h.2]
    have h2 : (Char.ofNat (c.toNat - 32)).toNat = c.toNat - 32 :=
      char_toNat_ofNat (by omega)
    rw [h1]
    simp [Char.toUpper, h2]
    omega
  · have h1 : c.toUpper = c := by
      simp [Char.toUpper]
      omega
    rw [h1, h1]

theorem toUpper_toLower_of_fix {c : Char} (h : c.toUpper = c) : c.toLower.toUpper = c := by
  by_cases hc : 65 ≤ c.toNat ∧ c.toNat ≤ 90
  · have h1 : c.toLower = Char.ofNat (c.toNat + 32) := by
      simp [Char.toLower, hc.1, hc.2]
    have h2 : (Char.ofNat (c.toNat + 32)).toNat = c.toNat + 32 :=
      char_toNat_ofNat (by omega)
    have h4 : (Char.ofNat (c.toNat + 32)).toUpper = Char.ofNat (c.toNat + 32 - 32) := by
      simp only [Char.toUpper, h2]
      rw [if_pos (show c.toNat + 32 ≥ 97 ∧ c.toNat + 32 ≤ 122 by omega)]
    have h5 : c.toNat + 32 - 32 = c.toNat := by omega
    rw [h1, h4, h5, Char.ofNat_toNat]
  · have h1 : c.toLower = c := by
      simp [Char.toLower]
      omega
    rw [h1, h]

theorem toLower_toUpper_of_fix {c : Char} (h : c.toLower = c) : c.toUpper.toLower = c := by
  by_cases hc : 97 ≤ c.toNat ∧ c.toNat ≤ 122
  · have h1 : c.toUpper = Char.ofNat (c.toNat - 32) := by
      simp [Char.toUpper, hc.1, hc.2]
    have h2 : (Char.ofNat (c.toNat - 32)).toNat = c.toNat - 32 :=
      char_toNat_ofNat (by omega)
    have h4 : (Char.ofNat (c.toNat - 32)).toLower = Char.ofNat (c.toNat - 32 + 32) := by
      simp only [Char.toLower, h2]
      rw [if_pos (show c.toNat - 32 ≥ 65 ∧ c.toNat - 32 ≤ 90 by omega)]
    have h5 : c.toNat - 32 + 32 = c.toNat := by omega
    rw [h1, h4, h5, Char.ofNat_toNat]
  · have h1 : c.toUpper = c := by
      simp [Char.toUpper]
      omega
    rw [h1, h]

theorem lowerN_lowerN (n : List Char) : lowerN (lowerN n) = lowerN n := by
  induction n with
  | nil => rfl
  | cons c cs ih =>
      simp [lowerN, List.map_cons] at ih ⊢
      exact ⟨toLower_toLower c, ih⟩

theorem upperN_upperN (n : List Char) : upperN (upperN n) = upperN n := by
  induction n with
  | nil => rfl
  | cons c cs ih =>
      simp [upperN, List.map_cons] at ih ⊢
      exact ⟨toUpper_toUpper c, ih⟩

theorem upperN_lowerN_of_upper {n : List Char} (h : upperN n = n) :
    upperN (lowerN n) = n := by
  induction n with
  | nil => rfl
  | cons c cs ih =>
      simp [upperN, lowerN, List.map_cons] at h ih ⊢
      exact ⟨toUpper_toLower_of_fix h.1, ih h.2⟩

theorem lowerN_upperN_of_lower {n : List Char} (h : lowerN n = n) :
    lowerN (upperN n) = n := by
  induction n with
  | nil => rfl
  | cons c cs ih =>
      simp [upperN, lowerN, List.map_cons] at h ih ⊢
      exact ⟨toLower_toUpper_of_fix h.1, ih h.2⟩

/-- HANADialect.normalize_name, on a present (non-None) name.  The dialect
lower-cases an all-upper-case identifier whose lower-cased form does not
require quoting and passes every other identifier through.  `rq` models
`self.identifier_preparer._requires_quotes`. -/
def normalizeS (rq : List Char → Bool) (name : List Char) : List Char :=
  if upperN name = name ∧ rq (lowerN name) = false then lowerN name else name

/-- HANADialect.denormalize_name, on a present (non-None) name: upper-cases an
all-lower-case identifier whose lower-cased form does not require quoting. -/
def denormalizeS (rq : List Char → Bool) (name : List Char) : List Char :=
  if lowerN name = name ∧ rq (lowerN name) = false then upperN name else name

/-- HANADialect.normalize_name including the None passthrough branch. -/
def normalize_name (rq : List Char → Bool) : Option (List Char) → Option (List Char)
  | none => none
  | some name => some (normalizeS rq name)

/-- HANADialect.denormalize_name including the None passthrough branch. -/
def denormalize_name (rq : List Char → Bool) : Option (List Char) → Option (List Char)
  | none => none
  | some name => some (denormalizeS rq name)

example : normalizeS (fun _ => false) "ABC".data = "abc".data := by decide
example : normalizeS (fun _ => false) "Abc".data = "Abc".data := by decide
example : denormalizeS (fun _ => false) "abc".data = "ABC".data := by decide
example : denormalizeS (fun _ => false) (normalizeS (fun _ => false) "a".data) = "A".data := by
  decide

/-- C1 counterexample: with a requires-quotes predicate that never quotes, the
identifier "a" does not require quoting, yet
denormalize_name (normalize_name "a") = "A" ≠ "a", so normalize_name and
denormalize_name are not inverses on every identifier that does not require
quoting. -/
theorem C1_cex :
    (fun (_ : List Char) => false) (lowerN "a".data) = false ∧
    denormalizeS (fun _ => false) (normalizeS (fun _ => false) "a".data) ≠ "a".data := by
  decide

/-- C1 (amended): for every identifier x whose lower-cased form does not
require quoting, denormalize_name inverts normalize_name when x is
all-upper-case and normalize_name inverts denormalize_name when x is
all-lower-case; in particular, for every all-upper-case such identifier,
normalize(denormalize(normalize(x))) = normalize(x). -/
theorem C1_round_trip (rq : List Char → Bool) (x : List Char)
    (h : rq (lowerN x) = false) :
    (upperN x = x → denormalizeS rq (normalizeS rq x) = x) ∧
    (lowerN x = x → normalizeS rq (denormalizeS rq x) = x) ∧
    (upperN x = x → normalizeS rq (denormalizeS rq (normalizeS rq x)) = normalizeS rq x) := by
  have part1 : upperN x = x → denormalizeS rq (normalizeS rq x) = x := by
    intro hu
    have hn : normalizeS rq x = lowerN x := by
      simp [normalizeS, hu, h]
    rw [hn]
    have hcond : lowerN (lowerN x) = lowerN x ∧ rq (lowerN (lowerN x)) = false := by
      rw [lowerN_lowerN]
      exact ⟨rfl, h⟩
    simp only [denormalizeS, if_pos hcond]
    exact upperN_lowerN_of_upper hu
  refine ⟨part1, ?_, ?_⟩
  · intro hl
    have h' : rq x = false := by
      have hcopy := h
      rw [hl] at hcopy
      exact hcopy
    have hd : denormalizeS rq x = upperN x := by
      simp [denormalizeS, hl, h']
    rw [hd]
    have hlu : lowerN (upperN x) = x := lowerN_upperN_of_lower hl
    have hcond : upperN (upperN x) = upperN x ∧ rq (lowerN (upperN x)) = false := by
      refine ⟨upperN_upperN x, ?_⟩
      rw [hlu]
      exact h'
    simp only [normalizeS, if_pos hcond]
    exact hlu
  · intro hu
    rw [part1 hu]

/-- C1 witness: the round-trip theorem applied at the all-upper identifier
"AB" and the never-quoting predicate. -/
theorem C1_round_trip_witness :
    denormalizeS (fun _ => false) (normalizeS (fun _ => false) "AB".data) = "AB".data ∧
    normalizeS (fun _ => false)
      (denormalizeS (fun _ => false) (normalizeS (fun _ => false) "AB".data)) =
      normalizeS (fun _ => false) "AB".data :=
  ⟨(C1_round_trip (fun _ => false) "AB".data rfl).1 (by decide),
   (C1_round_trip (fun _ => false) "AB".data rfl).2.2 (by decide)⟩

/-- C7: an identifier whose lower-cased form requires quoting (and likewise a
mixed-case identifier) is passed through unchanged by both normalize_name and
denormalize_name, and both map None to None. -/
theorem C7_passthrough (rq : List Char → Bool) :
    (∀ x : List Char,
      rq (lowerN x) = true ∨ (upperN x ≠ x ∧ lowerN x ≠ x) →
      normalizeS rq x = x ∧ denormalizeS rq x = x) ∧
    normalize_name rq none = none ∧ denormalize_name rq none = none := by
  refine ⟨?_, rfl, rfl⟩
  intro x hx
  rcases hx with hq | ⟨hu, hl⟩
  · constructor
    · simp [normalizeS, hq]
    · simp [denormalizeS, hq]
  · constructor
    · simp [normalizeS, hu]
    · simp [denormalizeS, hl]

/-- C7 witness: the passthrough theorem applied at the always-quoting
predicate and the identifier "SELECT". -/
theorem C7_passthrough_witness :
    normalizeS (fun _ => true) "SELECT".data = "SELECT".data ∧
    denormalizeS (fun _ => true) "SELECT".data = "SELECT".data :=
  (C7_passthrough (fun _ => true)).1 "SELECT".data (Or.inl rfl)

/-- UniqueConstraint as seen by HANADDLCompiler.visit_unique_constraint: an
optional name, the list of column names, and the generic deferrability
attributes consulted by DDLCompiler.define_constraint_deferrability. -/
structure UniqueConstraint where
  name : Option (List Char)
  columns : List (List Char)
  deferrable : Option Bool
  initially : Option (List Char)
deriving DecidableEq

/-- HANAIdentifierPreparer.format_constraint: HANA does not support named
constraints, so the preparer yields no formatted name for any constraint. -/
def format_constraint (_ : UniqueConstraint) : Option (List Char) := none

/-- IdentifierPreparer._escape_identifier of the host framework: double every
embedded double-quote character. -/
def escape_identifier : List Char → List Char
  | [] => []
  | c :: cs =>
      if c = '"' then '"' :: '"' :: escape_identifier cs
      else c :: escape_identifier cs

/-- IdentifierPreparer.quote of the host framework: wrap the identifier in
double quotes exactly when it requires quoting. -/
def quote (rq : List Char → Bool) (ident : List Char) : List Char :=
  if rq ident then '"' :: (escape_identifier ident ++ ['"']) else ident

/-- DDLCompiler.define_constraint_deferrability of the host framework:
appends " DEFERRABLE"/" NOT DEFERRABLE" and " INITIALLY <x>" as requested by
the constraint's deferrable/initially attributes. -/
def define_constraint_deferrability (c : UniqueConstraint) : List Char :=
  (match c.deferrable with
   | none => []
   | some true => " DEFERRABLE".data
   | some false => " NOT DEFERRABLE".data) ++
  (match c.initially with
   | none => []
   | some i => " INITIALLY ".data ++ i)

/-- HANADDLCompiler.visit_unique_constraint: empty text for an empty column
set; otherwise an optional "CONSTRAINT <name> " head (dead in practice since
format_constraint yields none), "UNIQUE (" the quoted columns ")" and the
deferrability clause. -/
def visit_unique_constraint (rq : List Char → Bool) (c : UniqueConstraint) : List Char :=
  if c.columns.length = 0 then []
  else
    (match c.name, format_constraint c with
     | some _, some fn => "CONSTRAINT ".data ++ fn ++ " ".data
     | _, _ => []) ++
    "UNIQUE (".data ++ (List.intercalate ", ".data (c.columns.map (quote rq))) ++ ")".data ++
    define_constraint_deferrability c

example :
    visit_unique_constraint (fun _ => false) ⟨none, ["a".data, "b".data], none, none⟩ =
      "UNIQUE (a, b)".data := by decide

/-- C5: visit_unique_constraint returns empty text on a constraint with zero
columns, and on an unnamed two-column constraint over columns a and b that
need no quoting, with no deferrability attributes, it returns exactly
"UNIQUE (a, b)". -/
theorem C5_visit_unique_constraint :
    (∀ (rq : List Char → Bool) (c : UniqueConstraint), c.columns = [] →
        visit_unique_constraint rq c = []) ∧
    (∀ rq : List Char → Bool, rq "a".data = false → rq "b".data = false →
        visit_unique_constraint rq ⟨none, ["a".data, "b".data], none, none⟩ =
          "UNIQUE (a, b)".data) := by
  constructor
  · intro rq c hc
    simp [visit_unique_constraint, hc]
  · intro rq ha hb
    have hqa : quote rq "a".data = "a".data := by simp [quote, ha]
    have hqb : quote rq "b".data = "b".data := by simp [quote, hb]
    simp only [visit_unique_constraint]
    rw [if_neg (by decide)]
    simp only [List.map_cons, List.map_nil, hqa, hqb]
    decide

/-- C5 witness: the theorem applied to a concrete empty constraint and to the
concrete constraint UNIQUE(a, b) with the never-quoting predicate. -/
theorem C5_visit_unique_constraint_witness :
    visit_unique_constraint (fun _ => false) ⟨some "u1".data, [], none, none⟩ = [] ∧
    visit_unique_constraint (fun _ => false) ⟨none, ["a".data, "b".data], none, none⟩ =
      "UNIQUE (a, b)".data :=
  ⟨C5_visit_unique_constraint.1 (fun _ => false) ⟨some "u1".data, [], none, none⟩ rfl,
   C5_visit_unique_constraint.2 (fun _ => false) rfl rfl⟩

/-- Generic connection URL fields consumed by create_connect_args. -/
structure ConnectURL where
  host : Option (List Char)
  database : Option (List Char)
  username : Option (List Char)
  password : Option (List Char)
  port : Option Nat
deriving DecidableEq

/-- A driver keyword value: a string or a number (the port). -/
inductive ConnectValue where
  | str (v : List Char)
  | num (v : Nat)
deriving DecidableEq

/-- Python dict lookup on the keyword-argument association list. -/
def kwLookup (k : List Char) : List (List Char × ConnectValue) → Option ConnectValue
  | [] => none
  | (k', v) :: rest => if k = k' then some v else kwLookup k rest

/-- URL.translate_connect_args of the host framework, called with the
username field renamed to "user": each present field becomes one keyword
entry, absent fields are omitted. -/
def translate_connect_args (u : ConnectURL) : List (List Char × ConnectValue) :=
  (match u.host with | some v => [("host".data, ConnectValue.str v)] | none => []) ++
  (match u.database with | some v => [("database".data, ConnectValue.str v)] | none => []) ++
  (match u.username with | some v => [("user".data, ConnectValue.str v)] | none => []) ++
  (match u.password with | some v => [("password".data, ConnectValue.str v)] | none => []) ++
  (match u.port with | some v => [("port".data, ConnectValue.num v)] | none => [])

/-- Python dict.setdefault: add the key with the default value only when the
key is absent. -/
def setdefault (kwargs : List (List Char × ConnectValue)) (k : List Char) (v : ConnectValue) :
    List (List Char × ConnectValue) :=
  if (kwLookup k kwargs).isSome then kwargs else kwargs ++ [(k, v)]

/-- HANADialect.create_connect_args: no positional arguments, and the
translated keyword mapping with the port defaulted to 30015. -/
def create_connect_args (u : ConnectURL) : List ConnectValue × List (List Char × ConnectValue) :=
  ([], setdefault (translate_connect_args u) "port".data (ConnectValue.num 30015))

/-- C8: the keyword mapping built by create_connect_args carries the URL's
username under the key "user" (and no "username" key), and its port is 30015
exactly when the URL has no port, a URL-specified port being preserved
unchanged. -/
theorem C8_create_connect_args (u : ConnectURL) :
    kwLookup "user".data (create_connect_args u).2 = u.username.map ConnectValue.str ∧
    kwLookup "username".data (create_connect_args u).2 = none ∧
    kwLookup "port".data (create_connect_args u).2 =
      some (ConnectValue.num (u.port.getD 30015)) := by
  obtain ⟨h, d, un, pw, po⟩ := u
  cases h <;> cases d <;> cases un <;> cases pw <;> cases po <;>
    exact ⟨rfl, rfl, rfl⟩

/-- C8 witness: the theorem applied to a concrete URL with no port, and the
port conjunct checked there concretely. -/
theorem C8_create_connect_args_witness :
    kwLookup "user".data
      (create_connect_args ⟨some "h".data, none, some "u".data, some "p".data, none⟩).2 =
      some (ConnectValue.str "u".data) ∧
    kwLookup "port".data
      (create_connect_args ⟨some "h".data, none, some "u".data, some "p".data, none⟩).2 =
      some (ConnectValue.num 30015) :=
  ⟨(C8_create_connect_args ⟨some "h".data, none, some "u".data, some "p".data, none⟩).1,
   (C8_create_connect_args ⟨some "h".data, none, some "u".data, some "p".data, none⟩).2.2⟩

/-- The record returned by get_pk_constraint. -/
structure PKConstraint where
  name : Option (List Char)
  constrained_columns : List (List Char)
deriving DecidableEq

/-- HANADialect.get_pk_constraint as a function of the catalog rows
(constraint name, column name): the loop keeps the last row's constraint name
and appends each row's normalized column, then the name is normalized with
the None-aware normalize_name. -/
def get_pk_constraint (rq : List Char → Bool) (rows : List (List Char × List Char)) :
    PKConstraint :=
  let st := rows.foldl
    (fun (st : Option (List Char) × List (List Char)) row =>
      (some row.1, st.2 ++ [normalizeS rq row.2]))
    (none, [])
  ⟨normalize_name rq st.1, st.2⟩

/-- C6: on zero catalog rows get_pk_constraint returns, without error, a null
constraint name and an empty constrained-column list. -/
theorem C6_get_pk_constraint_empty (rq : List Char → Bool) :
    get_pk_constraint rq [] = ⟨none, []⟩ := rfl

/-- C6 witness: the theorem applied at the never-quoting predicate. -/
theorem C6_get_pk_constraint_empty_witness :
    get_pk_constraint (fun _ => false) [] = ⟨none, []⟩ :=
  C6_get_pk_constraint_empty (fun _ => false)

/-- A column type as resolved from a catalog type name: the generic registry
classes checked by get_columns (DECIMAL, VARCHAR, any other recognized class,
the null placeholder NULLTYPE) and the parameterized DECIMAL/VARCHAR
instances built afterwards. -/
inductive SAType where
  | NULLTYPE
  | DECIMAL
  | VARCHAR
  | named (n : List Char)
  | DECIMALP (length scale : Option Int)
  | VARCHARP (length : Option Int)
deriving DecidableEq

/-- One TABLE_COLUMNS catalog row: COLUMN_NAME, DATA_TYPE_NAME,
DEFAULT_VALUE, IS_NULLABLE, LENGTH, SCALE. -/
structure ColumnRow where
  column_name : List Char
  data_type_name : List Char
  default_value : Option (List Char)
  is_nullable : Option (List Char)
  length : Option Int
  scale : Option Int
deriving DecidableEq

/-- One column descriptor built by get_columns. -/
structure ColumnEntry where
  name : List Char
  default : Option (List Char)
  nullable : Bool
  type : SAType
deriving DecidableEq

/-- The per-row body of the get_columns loop: nullable is the exact string
comparison with "TRUE"; the type name is looked up in the generic registry,
then in the HANA registry, else NULLTYPE; DECIMAL then receives
(length, scale) and VARCHAR receives length. -/
def columnOfRow (rq : List Char → Bool)
    (generic_types hana_types : List Char → Option SAType) (row : ColumnRow) : ColumnEntry :=
  let t0 := match generic_types row.data_type_name with
    | some t => t
    | none => match hana_types row.data_type_name with
      | some t => t
      | none => SAType.NULLTYPE
  let t := if t0 = SAType.DECIMAL then SAType.DECIMALP row.length row.scale
    else if t0 = SAType.VARCHAR then SAType.VARCHARP row.length
    else t0
  { name := normalizeS rq row.column_name
    default := row.default_value
    nullable := decide (row.is_nullable = some "TRUE".data)
    type := t }

/-- Whether a row's type name is found in neither registry, which is the
condition under which get_columns warns. -/
def unknownType (generic_types hana_types : List Char → Option SAType) (row : ColumnRow) :
    Bool :=
  (generic_types row.data_type_name).isNone && (hana_types row.data_type_name).isNone

/-- HANADialect.get_columns as a function of the catalog rows: one descriptor
is appended per row, and one warning (type name, normalized column name) is
recorded per row whose type name neither registry recognizes. -/
def get_columns (rq : List Char → Bool)
    (generic_types hana_types : List Char → Option SAType) (rows : List ColumnRow) :
    List ColumnEntry × List (List Char × List Char) :=
  rows.foldl
    (fun acc row =>
      (acc.1 ++ [columnOfRow rq generic_types hana_types row],
       if unknownType generic_types hana_types row
       then acc.2 ++ [(row.data_type_name, normalizeS rq row.column_name)]
       else acc.2))
    ([], [])

/-- The warnings emitted by a run of get_columns, stated directly. -/
def columnWarnings (rq : List Char → Bool)
    (generic_types hana_types : List Char → Option SAType) (rows : List ColumnRow) :
    List (List Char × List Char) :=
  (rows.filter (fun r => unknownType generic_types hana_types r)).map
    (fun r => (r.data_type_name, normalizeS rq r.column_name))

theorem get_columns_eq (rq : List Char → Bool)
    (generic_types hana_types : List Char → Option SAType) (rows : List ColumnRow) :
    get_columns rq generic_types hana_types rows =
      (rows.map (columnOfRow rq generic_types hana_types),
       columnWarnings rq generic_types hana_types rows) := by
  suffices h : ∀ (rows : List ColumnRow) (acc : List ColumnEntry × List (List Char × List Char)),
      rows.foldl
        (fun acc row =>
          (acc.1 ++ [columnOfRow rq generic_types hana_types row],
           if unknownType generic_types hana_types row
           then acc.2 ++ [(row.data_type_name, normalizeS rq row.column_name)]
           else acc.2))
        acc =
        (acc.1 ++ rows.map (columnOfRow rq generic_types hana_types),
         acc.2 ++ columnWarnings rq generic_types hana_types rows) by
    have := h rows ([], [])
    simpa [get_columns] using this
  intro rows
  induction rows with
  | nil => intro acc; simp [columnWarnings]
  | cons r rest ih =>
      intro acc
      by_cases hu : unknownType generic_types hana_types r
      · simp [List.foldl_cons, ih, columnWarnings, List.filter_cons, hu]
      · simp [List.foldl_cons, ih, columnWarnings, List.filter_cons, hu]

/-- C4: a catalog row whose type name is found in neither registry still
yields exactly one descriptor, at its row position, carrying the NULLTYPE
placeholder, and a warning naming the type and column is recorded; the other
rows are unaffected (the descriptor list always has one entry per row). -/
theorem C4_get_columns_unknown_type (rq : List Char → Bool)
    (generic_types hana_types : List Char → Option SAType) (rows : List ColumnRow)
    (i : Nat) (row : ColumnRow) (hrow : rows[i]? = some row)
    (hg : generic_types row.data_type_name = none)
    (hh : hana_types row.data_type_name = none) :
    (get_columns rq generic_types hana_types rows).1.length = rows.length ∧
    (get_columns rq generic_types hana_types rows).1[i]? =
      some ⟨normalizeS rq row.column_name, row.default_value,
            decide (row.is_nullable = some "TRUE".data), SAType.NULLTYPE⟩ ∧
    (row.data_type_name, normalizeS rq row.column_name) ∈
      (get_columns rq generic_types hana_types rows).2 := by
  rw [get_columns_eq]
  refine ⟨by simp, ?_, ?_⟩
  · simp only [List.getElem?_map, hrow, Option.map_some]
    simp [columnOfRow, hg, hh]
  · have hmem : row ∈ rows := List.mem_iff_getElem?.mpr ⟨i, hrow⟩
    have hunk : unknownType generic_types hana_types row = true := by
      simp [unknownType, hg, hh]
    exact List.mem_map_of_mem _ (List.mem_filter.mpr ⟨hmem, hunk⟩)

/-- C4 witness: the theorem applied to a one-row catalog whose type name
"MYSTERY" is in neither registry. -/
theorem C4_get_columns_unknown_type_witness :
    (get_columns (fun _ => false) (fun _ => none) (fun _ => none)
        [⟨"C1".data, "MYSTERY".data, none, some "TRUE".data, none, none⟩]).1[0]? =
      some ⟨"c1".data, none, true, SAType.NULLTYPE⟩ ∧
    ("MYSTERY".data, "c1".data) ∈
      (get_columns (fun _ => false) (fun _ => none) (fun _ => none)
        [⟨"C1".data, "MYSTERY".data, none, some "TRUE".data, none, none⟩]).2 := by
  have h := C4_get_columns_unknown_type (fun _ => false) (fun _ => none) (fun _ => none)
    [⟨"C1".data, "MYSTERY".data, none, some "TRUE".data, none, none⟩] 0
    ⟨"C1".data, "MYSTERY".data, none, some "TRUE".data, none, none⟩ rfl rfl rfl
  refine ⟨?_, ?_⟩
  · rw [h.2.1]
    decide
  · have h2 := h.2.2
    have he : normalizeS (fun _ => false) "C1".data = "c1".data := by decide
    rw [he] at h2
    exact h2

/-- C10: a descriptor's nullable field is true exactly when the row's
IS_NULLABLE value is the exact string "TRUE". -/
theorem C10_get_columns_nullable (rq : List Char → Bool)
    (generic_types hana_types : List Char → Option SAType) (rows : List ColumnRow)
    (i : Nat) (row : ColumnRow) (hrow : rows[i]? = some row)
    (e : ColumnEntry) (he : (get_columns rq generic_types hana_types rows).1[i]? = some e) :
    e.nullable = true ↔ row.is_nullable = some "TRUE".data := by
  rw [get_columns_eq] at he
  simp only [List.getElem?_map, hrow, Option.map_some] at he
  cases he
  simp [columnOfRow]

/-- C10 witness: the theorem applied to rows carrying "TRUE", "true", "True"
and NULL, whose descriptors get nullable true, false, false and false. -/
theorem C10_get_columns_nullable_witness :
    ((get_columns (fun _ => false) (fun _ => none) (fun _ => none)
        [⟨"a".data, "T".data, none, some "TRUE".data, none, none⟩,
         ⟨"b".data, "T".data, none, some "true".data, none, none⟩,
         ⟨"c".data, "T".data, none, some "True".data, none, none⟩,
         ⟨"d".data, "T".data, none, none, none, none⟩]).1.map ColumnEntry.nullable =
      [true, false, false, false]) ∧
    (true ↔ (some "TRUE".data : Option (List Char)) = some "TRUE".data) := by
  refine ⟨by decide, ?_⟩
  have h := C10_get_columns_nullable (fun _ => false) (fun _ => none) (fun _ => none)
    [⟨"a".data, "T".data, none, some "TRUE".data, none, none⟩,
     ⟨"b".data, "T".data, none, some "true".data, none, none⟩,
     ⟨"c".data, "T".data, none, some "True".data, none, none⟩,
     ⟨"d".data, "T".data, none, none, none, none⟩] 0
    ⟨"a".data, "T".data, none, some "TRUE".data, none, none⟩ rfl
    ⟨"a".data, none, true, SAType.NULLTYPE⟩ (by decide)
  exact h

/-- One REFERENTIAL_CONSTRAINTS catalog row: COLUMN_NAME,
REFERENCED_SCHEMA_NAME, REFERENCED_TABLE_NAME, REFERENCED_COLUMN_NAME. -/
structure ForeignKeyRow where
  column_name : List Char
  referenced_schema_name : List Char
  referenced_table_name : List Char
  referenced_column_name : List Char
deriving DecidableEq

/-- One foreign-key descriptor built by get_foreign_keys. -/
structure ForeignKeyEntry where
  name : Option (List Char)
  constrained_columns : List (List Char)
  referred_schema : Option (List Char)
  referred_table : List Char
  referred_columns : List (List Char)
deriving DecidableEq

/-- HANADialect.get_foreign_keys as a function of the explicit schema
argument, the dialect's default schema name and the catalog rows.  Note that
the referred schema, when reported, is the raw catalog value, not its
normalize_name image. -/
def get_foreign_keys (rq : List Char → Bool) (schema : Option (List Char))
    (default_schema_name : List Char) (rows : List ForeignKeyRow) : List ForeignKeyEntry :=
  rows.map (fun row =>
    { name := none
      constrained_columns := [normalizeS rq row.column_name]
      referred_schema :=
        if schema.isSome ∨ row.referenced_schema_name ≠ default_schema_name
        then some row.referenced_schema_name else none
      referred_table := normalizeS rq row.referenced_table_name
      referred_columns := [normalizeS rq row.referenced_column_name] })

/-- C2 counterexample: with an explicit schema argument and a row referencing
schema "OTHER", the returned referred_schema is the raw "OTHER", which
differs from its normalize_name image "other", so not all returned
identifiers are normalized. -/
theorem C2_cex :
    (get_foreign_keys (fun _ => false) (some "s".data) "M".data
        [⟨"c".data, "OTHER".data, "t".data, "rc".data⟩]).map ForeignKeyEntry.referred_schema =
      [some "OTHER".data] ∧
    normalizeS (fun _ => false) "OTHER".data ≠ "OTHER".data := by
  decide

/-- C2 (amended): every descriptor has a null constraint name; the
constrained column, referred table and referred columns are normalized; the
referred_schema is non-null exactly when an explicit schema was passed or the
row's referenced schema differs from the default schema name, and when
reported it is the raw (unnormalized) referenced schema name. -/
theorem C2_get_foreign_keys (rq : List Char → Bool) (schema : Option (List Char))
    (default_schema_name : List Char) (rows : List ForeignKeyRow) :
    (get_foreign_keys rq schema default_schema_name rows).length = rows.length ∧
    ∀ (i : Nat) (row : ForeignKeyRow), rows[i]? = some row →
      ∀ e : ForeignKeyEntry, (get_foreign_keys rq schema default_schema_name rows)[i]? = some e →
        e.name = none ∧
        e.constrained_columns = [normalizeS rq row.column_name] ∧
        e.referred_table = normalizeS rq row.referenced_table_name ∧
        e.referred_columns = [normalizeS rq row.referenced_column_name] ∧
        (e.referred_schema.isSome ↔
          (schema.isSome ∨ row.referenced_schema_name ≠ default_schema_name)) ∧
        (∀ s, e.referred_schema = some s → s = row.referenced_schema_name) := by
  refine ⟨by simp [get_foreign_keys], ?_⟩
  intro i row hrow e he
  rw [get_foreign_keys] at he
  simp only [List.getElem?_map, hrow, Option.map_some] at he
  cases he
  by_cases hc : schema.isSome ∨ row.referenced_schema_name ≠ default_schema_name
  · simp [hc]
  · simp [hc]

/-- C2 witness: the amended theorem applied to a concrete one-row catalog
with no explicit schema and a referenced schema equal to the default, whose
descriptor therefore reports no referred schema. -/
theorem C2_get_foreign_keys_witness :
    ∀ e, (get_foreign_keys (fun _ => false) none "M".data
        [⟨"C".data, "M".data, "T".data, "RC".data⟩])[0]? = some e →
      e.name = none ∧ e.constrained_columns = ["c".data] := by
  intro e he
  have h := (C2_get_foreign_keys (fun _ => false) none "M".data
    [⟨"C".data, "M".data, "T".data, "RC".data⟩]).2 0
    ⟨"C".data, "M".data, "T".data, "RC".data⟩ rfl e he
  exact ⟨h.1, by rw [h.2.1]; decide⟩

/-- One INDEX_COLUMNS catalog row: INDEX_NAME, COLUMN_NAME, CONSTRAINT. -/
structure IndexRow where
  index_name : List Char
  column_name : List Char
  constraint : Option (List Char)
deriving DecidableEq

/-- One index descriptor built by get_indexes. -/
structure IndexEntry where
  name : List Char
  unique : Bool
  column_names : List (List Char)
deriving DecidableEq

/-- Whether a catalog row belongs to a reserved system index, that is, its
raw index name starts with "_SYS"; such rows are skipped by get_indexes. -/
def sysRow (r : IndexRow) : Bool := "_SYS".data.isPrefixOf r.index_name

/-- Python's substring operator (needle in hay) on character lists. -/
def isSubstring (needle : List Char) : List Char → Bool
  | [] => needle.isPrefixOf []
  | c :: tail => needle.isPrefixOf (c :: tail) || isSubstring needle tail

/-- The unique flag computed when get_indexes first meets an index name:
false for a null constraint marker, else the substring test of "UNIQUE"
against the upper-cased marker (a case-insensitive occurrence test). -/
def uniqueOfConstraint : Option (List Char) → Bool
  | none => false
  | some m => isSubstring "UNIQUE".data (upperN m)

/-- The body of the get_indexes loop for one catalog row: skip system rows;
an unseen (normalized) index name opens a new entry whose unique flag comes
from this row's constraint marker; a seen name only appends the normalized
column to its entry. -/
def addIndexRow (rq : List Char → Bool) (acc : List IndexEntry) (r : IndexRow) :
    List IndexEntry :=
  if sysRow r then acc
  else
    let n := normalizeS rq r.index_name
    let c := normalizeS rq r.column_name
    if acc.any (fun e => e.name == n) then
      acc.map (fun e =>
        if e.name = n then ⟨e.name, e.unique, e.column_names ++ [c]⟩ else e)
    else
      acc ++ [⟨n, uniqueOfConstraint r.constraint, [c]⟩]

/-- HANADialect.get_indexes as a function of the catalog rows, which arrive
ordered by position. -/
def get_indexes (rq : List Char → Bool) (rows : List IndexRow) : List IndexEntry :=
  rows.foldl (addIndexRow rq) []

/-- The catalog rows not belonging to a reserved system index. -/
def nonSysRows (rows : List IndexRow) : List IndexRow :=
  rows.filter (fun r => !(sysRow r))

/-- The non-system catalog rows contributing to the index entry named n
(n in normalized form), in query order. -/
def rowsFor (rq : List Char → Bool) (rows : List IndexRow) (n : List Char) : List IndexRow :=
  (nonSysRows rows).filter (fun r => normalizeS rq r.index_name == n)

theorem get_indexes_append (rq : List Char → Bool) (init : List IndexRow) (r : IndexRow) :
    get_indexes rq (init ++ [r]) = addIndexRow rq (get_indexes rq init) r := by
  simp [get_indexes, List.foldl_append]

theorem nonSysRows_append (init : List IndexRow) (r : IndexRow) :
    nonSysRows (init ++ [r]) = nonSysRows init ++ if sysRow r then [] else [r] := by
  by_cases hs : sysRow r <;> simp [nonSysRows, List.filter_append, hs]

theorem rowsFor_append (rq : List Char → Bool) (init : List IndexRow) (r : IndexRow)
    (n : List Char) :
    rowsFor rq (init ++ [r]) n =
      rowsFor rq init n ++
        if sysRow r = false ∧ normalizeS rq r.index_name = n then [r] else [] := by
  by_cases hs : sysRow r
  · simp [rowsFor, nonSysRows_append, hs]
  · by_cases hn : normalizeS rq r.index_name = n
    · simp [rowsFor, nonSysRows_append, hs, hn]
    · simp [rowsFor, nonSysRows_append, hs, hn]

theorem names_map_update (acc : List IndexEntry) (nn c : List Char) :
    (acc.map (fun e =>
        if e.name = nn then (⟨e.name, e.unique, e.column_names ++ [c]⟩ : IndexEntry)
        else e)).map IndexEntry.name =
      acc.map IndexEntry.name := by
  induction acc with
  | nil => rfl
  | cons e es ih => by_cases h : e.name = nn <;> simp [h, ih]

theorem get_indexes_hasName (rq : List Char → Bool) (rows : List IndexRow) :
    ∀ n : List Char,
      (get_indexes rq rows).any (fun e => e.name == n) =
        (nonSysRows rows).any (fun r => normalizeS rq r.index_name == n) := by
  induction rows using List.reverseRecOn with
  | nil => intro n; rfl
  | append_singleton init r ih =>
      intro n
      rw [get_indexes_append, nonSysRows_append]
      by_cases hs : sysRow r
      · rw [addIndexRow, if_pos hs]
        simp [hs, ih n]
      · rw [addIndexRow, if_neg hs]
        simp only []
        by_cases hin :
            (get_indexes rq init).any (fun e => e.name == normalizeS rq r.index_name) = true
        · rw [if_pos hin]
          rw [List.any_map]
          have hfun : ((fun e : IndexEntry => e.name == n) ∘
              (fun e : IndexEntry =>
                if e.name = normalizeS rq r.index_name
                then (⟨e.name, e.unique, e.column_names ++ [normalizeS rq r.column_name]⟩ :
                        IndexEntry)
                else e)) = (fun e : IndexEntry => e.name == n) := by
            funext e
            by_cases h : e.name = normalizeS rq r.index_name <;> simp [h]
          rw [hfun, ih n]
          by_cases hnn : normalizeS rq r.index_name = n
          · have h1 : (nonSysRows init).any
                (fun r' => normalizeS rq r'.index_name == n) = true := by
              rw [← hnn, ← ih (normalizeS rq r.index_name)]
              exact hin
            simp [hs, hnn, h1]
          · simp [hs, hnn]
        · rw [if_neg hin]
          simp [hs, ih n]

theorem get_indexes_nodup (rq : List Char → Bool) (rows : List IndexRow) :
    ((get_indexes rq rows).map IndexEntry.name).Nodup := by
  induction rows using List.reverseRecOn with
  | nil => simp [get_indexes]
  | append_singleton init r ih =>
      rw [get_indexes_append]
      by_cases hs : sysRow r
      · rw [addIndexRow, if_pos hs]
        exact ih
      · rw [addIndexRow, if_neg hs]
        simp only []
        by_cases hin :
            (get_indexes rq init).any (fun e => e.name == normalizeS rq r.index_name) = true
        · rw [if_pos hin, names_map_update]
          exact ih
        · rw [if_neg hin]
          have hnn : (normalizeS rq r.index_name) ∉ (get_indexes rq init).map IndexEntry.name := by
            intro hmem
            rcases List.mem_map.mp hmem with ⟨e, he, hname⟩
            exact hin (List.any_eq_true.mpr ⟨e, he, by simp [hname]⟩)
          simp only [List.map_append, List.map_cons, List.map_nil]
          rw [List.nodup_append]
          exact ⟨ih, List.nodup_singleton _, by simpa [List.disjoint_singleton] using hnn⟩

theorem rowsFor_eq_nil (rq : List Char → Bool) (init : List IndexRow) (nn : List Char)
    (h : (get_indexes rq init).any (fun e => e.name == nn) = false) :
    rowsFor rq init nn = [] := by
  have h2 := get_indexes_hasName rq init nn
  rw [h] at h2
  rw [rowsFor, List.filter_eq_nil_iff]
  intro a ha
  simpa using (List.any_eq_false.mp h2.symm) a ha

theorem get_indexes_columns (rq : List Char → Bool) (rows : List IndexRow) :
    ∀ e ∈ get_indexes rq rows,
      e.column_names = (rowsFor rq rows e.name).map (fun r => normalizeS rq r.column_name) := by
  induction rows using List.reverseRecOn with
  | nil => intro e he; simp [get_indexes] at he
  | append_singleton init r ih =>
      intro e he
      rw [get_indexes_append] at he
      rw [rowsFor_append]
      by_cases hs : sysRow r
      · rw [addIndexRow, if_pos hs] at he
        rw [if_neg (by simp [hs]), List.append_nil]
        exact ih e he
      · rw [addIndexRow, if_neg hs] at he
        have hss : sysRow r = false := by simp [hs]
        by_cases hin :
            (get_indexes rq init).any (fun e => e.name == normalizeS rq r.index_name) = true
        · rw [if_pos hin] at he
          rcases List.mem_map.mp he with ⟨e0, he0, rfl⟩
          by_cases h0 : e0.name = normalizeS rq r.index_name
          · rw [if_pos h0]
            simp [hss, h0.symm, ih e0 he0]
          · rw [if_neg h0]
            rw [if_neg (fun hc => h0 hc.2.symm), List.append_nil]
            exact ih e0 he0
        · rw [if_neg hin] at he
          rcases List.mem_append.mp he with he' | he'
          · have hne : e.name ≠ normalizeS rq r.index_name := by
              intro heq
              exact hin (List.any_eq_true.mpr ⟨e, he', by simp [heq]⟩)
            rw [if_neg (fun hc => hne hc.2.symm), List.append_nil]
            exact ih e he'
          · rw [List.mem_singleton] at he'
            subst he'
            have hin' : (get_indexes rq init).any
                (fun e => e.name == normalizeS rq r.index_name) = false := by
              revert hin
              cases (get_indexes rq init).any
                (fun e => e.name == normalizeS rq r.index_name) <;> simp
            have hnil := rowsFor_eq_nil rq init (normalizeS rq r.index_name) hin'
            simp [hnil, hss]

theorem get_indexes_unique (rq : List Char → Bool) (rows : List IndexRow) :
    ∀ e ∈ get_indexes rq rows,
      ∃ r0, (rowsFor rq rows e.name).head? = some r0 ∧
        e.unique = uniqueOfConstraint r0.constraint := by
  induction rows using List.reverseRecOn with
  | nil => intro e he; simp [get_indexes] at he
  | append_singleton init r ih =>
      intro e he
      rw [get_indexes_append] at he
      by_cases hs : sysRow r
      · rw [addIndexRow, if_pos hs] at he
        rw [rowsFor_append, if_neg (by simp [hs]), List.append_nil]
        exact ih e he
      · rw [addIndexRow, if_neg hs] at he
        have hss : sysRow r = false := by simp [hs]
        by_cases hin :
            (get_indexes rq init).any (fun e => e.name == normalizeS rq r.index_name) = true
        · rw [if_pos hin] at he
          rcases List.mem_map.mp he with ⟨e0, he0, rfl⟩
          rcases ih e0 he0 with ⟨r0, hr0, hu⟩
          by_cases h0 : e0.name = normalizeS rq r.index_name
          · rw [if_pos h0]
            refine ⟨r0, ?_, hu⟩
            rw [rowsFor_append]
            simp [hss, h0.symm, hr0]
          · rw [if_neg h0]
            refine ⟨r0, ?_, hu⟩
            rw [rowsFor_append, if_neg (fun hc => h0 hc.2.symm), List.append_nil]
            exact hr0
        · rw [if_neg hin] at he
          rcases List.mem_append.mp he with he' | he'
          · have hne : e.name ≠ normalizeS rq r.index_name := by
              intro heq
              exact hin (List.any_eq_true.mpr ⟨e, he', by simp [heq]⟩)
            rcases ih e he' with ⟨r0, hr0, hu⟩
            refine ⟨r0, ?_, hu⟩
            rw [rowsFor_append, if_neg (fun hc => hne hc.2.symm), List.append_nil]
            exact hr0
          · rw [List.mem_singleton] at he'
            subst he'
            have hin' : (get_indexes rq init).any
                (fun e => e.name == normalizeS rq r.index_name) = false := by
              revert hin
              cases (get_indexes rq init).any
                (fun e => e.name == normalizeS rq r.index_name) <;> simp
            have hnil := rowsFor_eq_nil rq init (normalizeS rq r.index_name) hin'
            refine ⟨r, ?_, rfl⟩
            rw [rowsFor_append]
            simp [hnil, hss]

theorem get_indexes_nonSys (rq : List Char → Bool) (rows : List IndexRow) :
    get_indexes rq rows = get_indexes rq (nonSysRows rows) := by
  have h : ∀ (l : List IndexRow) (acc : List IndexEntry),
      List.foldl (addIndexRow rq) acc l = List.foldl (addIndexRow rq) acc (nonSysRows l) := by
    intro l
    induction l with
    | nil => intro acc; rfl
    | cons r rest ih =>
        intro acc
        by_cases hs : sysRow r
        · have ha : addIndexRow rq acc r = acc := by rw [addIndexRow, if_pos hs]
          simp [nonSysRows, List.filter_cons, hs, ha, ih]
        · simp [nonSysRows, List.filter_cons, hs, List.foldl_cons, ih]
  exact h rows []

/-- C3: get_indexes ignores the reserved-system rows entirely (the result
over the full row list equals the result over the non-system rows); index
names are pairwise distinct in the output, so rows sharing a name feed a
single entry; that entry's columns are the normalized columns of its rows in
query order; and when all rows of an index carry the same constraint marker,
the entry's unique flag is exactly the case-insensitive "UNIQUE" substring
test on that marker (false for a null marker). -/
theorem C3_get_indexes (rq : List Char → Bool) (rows : List IndexRow) :
    get_indexes rq rows = get_indexes rq (nonSysRows rows) ∧
    ((get_indexes rq rows).map IndexEntry.name).Nodup ∧
    (∀ e ∈ get_indexes rq rows,
      e.column_names = (rowsFor rq rows e.name).map (fun r => normalizeS rq r.column_name)) ∧
    (∀ e ∈ get_indexes rq rows, ∀ m : Option (List Char),
      (∀ r ∈ rowsFor rq rows e.name, r.constraint = m) →
      e.unique = uniqueOfConstraint m) := by
  refine ⟨get_indexes_nonSys rq rows, get_indexes_nodup rq rows,
    get_indexes_columns rq rows, ?_⟩
  intro e he m hm
  rcases get_indexes_unique rq rows e he with ⟨r0, hr0, hu⟩
  have hmem : r0 ∈ rowsFor rq rows e.name := by
    rcases List.head?_eq_some_iff.mp hr0 with ⟨t, ht⟩
    rw [ht]
    exact List.mem_cons_self r0 t
  rw [hu, hm r0 hmem]

/-- C3 witness: the theorem applied to a concrete catalog with one system row
and two rows of index I1 that share the marker "unique"; the I1 entry groups
both columns and its unique flag matches the substring test on "unique". -/
theorem C3_get_indexes_witness :
    (⟨"i1".data, true, ["c1".data, "c2".data]⟩ : IndexEntry) ∈
        get_indexes (fun _ => false)
          [⟨"_SYS_TREE".data, "x".data, none⟩,
           ⟨"I1".data, "C1".data, some "unique".data⟩,
           ⟨"I1".data, "C2".data, some "unique".data⟩] ∧
    (⟨"i1".data, true, ["c1".data, "c2".data]⟩ : IndexEntry).unique =
      uniqueOfConstraint (some "unique".data) := by
  have hmem : (⟨"i1".data, true, ["c1".data, "c2".data]⟩ : IndexEntry) ∈
      get_indexes (fun _ => false)
        [⟨"_SYS_TREE".data, "x".data, none⟩,
         ⟨"I1".data, "C1".data, some "unique".data⟩,
         ⟨"I1".data, "C2".data, some "unique".data⟩] := by decide
  refine ⟨hmem, ?_⟩
  exact (C3_get_indexes (fun _ => false)
      [⟨"_SYS_TREE".data, "x".data, none⟩,
       ⟨"I1".data, "C1".data, some "unique".data⟩,
       ⟨"I1".data, "C2".data, some "unique".data⟩]).2.2.2 _ hmem
    (some "unique".data) (by decide)

/-- C9: an index entry's unique flag equals the substring test on the
constraint marker of the first catalog row of that index name alone; in
particular a null first marker forces the flag to false, whatever the
markers of the later rows of the same index. -/
theorem C9_get_indexes_first_marker (rq : List Char → Bool) (rows : List IndexRow) :
    ∀ e ∈ get_indexes rq rows,
      ∃ r0, (rowsFor rq rows e.name).head? = some r0 ∧
        e.unique = uniqueOfConstraint r0.constraint ∧
        (r0.constraint = none → e.unique = false) := by
  intro e he
  rcases get_indexes_unique rq rows e he with ⟨r0, hr0, hu⟩
  exact ⟨r0, hr0, hu, fun hc => by rw [hu, hc]; rfl⟩

/-- C9 witness: the theorem applied to a concrete index whose first row has a
null marker and whose second row carries "UNIQUE"; the flag is still false. -/
theorem C9_get_indexes_first_marker_witness :
    ∃ r0, (rowsFor (fun _ => false)
        [⟨"I2".data, "C1".data, none⟩,
         ⟨"I2".data, "C2".data, some "UNIQUE".data⟩] "i2".data).head? = some r0 ∧
      (⟨"i2".data, false, ["c1".data, "c2".data]⟩ : IndexEntry).unique =
        uniqueOfConstraint r0.constraint ∧
      (r0.constraint = none →
        (⟨"i2".data, false, ["c1".data, "c2".data]⟩ : IndexEntry).unique = false) :=
  C9_get_indexes_first_marker (fun _ => false)
    [⟨"I2".data, "C1".data, none⟩, ⟨"I2".data, "C2".data, some "UNIQUE".data⟩]
    ⟨"i2".data, false, ["c1".data, "c2".data]⟩ (by decide)

end SqlalchemyHana
